import Mathlib

/-!
# Japanese OCR system — verification of the reconciliation and layout core

This file is a shallow embedding, in Lean 4, of the algorithmic core of a
Japanese OCR annotation pipeline:

* the element-to-token **Reconciler** (`JapaneseTextWorkflow._visualize_node`
  in `workflow/graph.py`): for each OCR fragment bearing a kanji, it searches
  the token stream for the best matching token and produces a positioned
  furigana annotation, deduplicating on the `(x, y, text)` key;
* the **Layout Engine** (`VisualizationAgent.annotate` and
  `VisualizationAgent._calculate_line_spacing` in
  `agents/visualization_agent.py`): input validation, line-spacing estimation
  and font-size tier selection;
* the **Analyzer** failure handling (`LLMAgent.analyze` in
  `agents/llm_agent.py`) and the **Pipeline Controller**'s output assembly
  (`JapaneseTextWorkflow.process` / `_format_output` in `workflow/graph.py`).

External collaborators (Tesseract OCR, nagisa, pykakasi, JMdict, the Groq
HTTP call, PIL/cv2 pixel rendering) are modelled as explicit function
parameters: a call returning `none` stands for the call raising an exception,
`some v` for it returning `v`.  Everything else is translated directly from
the Python source.
-/

/-- A tokenized Japanese word, mirroring the `Token` dataclass of
`agents/nlp_agent.py` (fields `text, pos, hiragana, katakana, romaji,
is_kanji, meaning`). -/
structure Token where
  text : String
  pos : String
  hiragana : String
  katakana : String
  romaji : String
  is_kanji : Bool
  meaning : String
deriving DecidableEq, Repr

/-- One OCR-detected text region, mirroring the element dictionaries built by
`OCRAgent.extract_text` (keys `text, x, y, w, h`); the confidence score also
stored there is consumed only inside the OCR agent's own thresholding and is
never read by the reconciliation code verified here, so it is omitted. -/
structure Fragment where
  text : String
  x : Int
  y : Int
  w : Int
  h : Int
deriving DecidableEq, Repr

/-- A reconciled, positioned annotation, mirroring the `Annotation` dataclass
of `agents/visualization_agent.py` (fields `kanji, hiragana, meaning, x, y, w,
h`). -/
structure Annotation where
  kanji : String
  hiragana : String
  meaning : String
  x : Int
  y : Int
  w : Int
  h : Int
deriving DecidableEq, Repr

/-- The Python test `any('一' <= char <= '鿿' for char in text)`,
used both by the tokenizer (to set `is_kanji`) and by the reconciler (to skip
fragments without kanji). -/
def containsKanji (s : String) : Bool :=
  s.toList.any fun c => '一' ≤ c && c ≤ '鿿'

/-- The Python substring test `a in b` on strings: `a` occurs contiguously
inside `b`. -/
def substr (a b : String) : Bool :=
  decide (a.toList <:+: b.toList)

/-- The token-matching loop of `_visualize_node` (graph.py lines 128–144),
with the running accumulator `(best_match, best_match_length)` made explicit.
In source order: an exact match breaks out of the loop at once; otherwise
`token.text in elem_text` updates the best match when `len(token.text)`
beats the recorded score, and `elem_text in token.text` updates it when
`len(elem_text)` beats the recorded score. -/
def findBestMatchAux (elemText : String) :
    List Token → Option Token → Nat → Option Token
  | [], best, _ => best
  | t :: ts, best, bestLen =>
    if t.is_kanji = true then
      if t.text = elemText then
        some t
      else if substr t.text elemText = true ∧ t.text.length > bestLen then
        findBestMatchAux elemText ts (some t) t.text.length
      else if substr elemText t.text = true ∧ elemText.length > bestLen then
        findBestMatchAux elemText ts (some t) elemText.length
      else
        findBestMatchAux elemText ts best bestLen
    else
      findBestMatchAux elemText ts best bestLen

/-- The best-matching token for one OCR element, starting from
`best_match = None`, `best_match_length = 0` (graph.py lines 125–144). -/
def findBestMatch (tokens : List Token) (elemText : String) : Option Token :=
  findBestMatchAux elemText tokens none 0

/-- Python `dict.get(k, dflt)` on the vocabulary map, modelled on an
association list with unique keys. -/
def dictGet (m : List (String × String)) (k dflt : String) : String :=
  match m.find? (fun p => p.1 == k) with
  | some p => p.2
  | none => dflt

/-- The `(x, y, text)` deduplication key of an OCR element
(graph.py line 110). -/
def fragKey (e : Fragment) : Int × Int × String :=
  (e.x, e.y, e.text)

/-- The `(x, y, sourceText)` key of a produced annotation. -/
def annKey (a : Annotation) : Int × Int × String :=
  (a.x, a.y, a.kanji)

/-- One iteration of the reconciliation loop of `_visualize_node`
(graph.py lines 108–182) over a single OCR element, threading the
accumulator `(annotations, seen_positions)`.  `directReading` stands for the
external pykakasi fallback `kks.convert` joined on `hira`; `none` models the
lookup raising (the `except` branch that swallows the failure). -/
def reconcileStep (directReading : String → Option String)
    (vocab : List (String × String)) (tokens : List Token)
    (acc : List Annotation × List (Int × Int × String)) (e : Fragment) :
    List Annotation × List (Int × Int × String) :=
  let key := fragKey e
  if key ∈ acc.2 then
    acc
  else if containsKanji e.text = false then
    acc
  else
    match findBestMatch tokens e.text with
    | some best =>
      let meaning := dictGet vocab best.text best.meaning
      (acc.1 ++ [⟨e.text, best.hiragana, if meaning = "" then "" else meaning,
                  e.x, e.y, e.w, e.h⟩],
       acc.2 ++ [key])
    | none =>
      match directReading e.text with
      | some hira =>
        (acc.1 ++ [⟨e.text, hira, "", e.x, e.y, e.w, e.h⟩], acc.2 ++ [key])
      | none => acc

/-- The Reconciler: the annotation list built by `_visualize_node` from the
OCR elements, the token list and the vocabulary map. -/
def reconcile (directReading : String → Option String)
    (vocab : List (String × String)) (tokens : List Token)
    (elems : List Fragment) : List Annotation :=
  (elems.foldl (reconcileStep directReading vocab tokens) ([], [])).1

/-! ## Basic facts about the string tests -/

theorem substr_iff {a b : String} : substr a b = true ↔ a.toList <:+: b.toList :=
  decide_eq_true_iff

theorem toList_length (s : String) : s.toList.length = s.length := rfl

theorem substr_length_le {a b : String} (h : substr a b = true) :
    a.length ≤ b.length := by
  have := (substr_iff.mp h).sublist.length_le
  simpa [toList_length] using this

theorem substr_eq_of_length_ge {a b : String} (h : substr a b = true)
    (hlen : b.length ≤ a.length) : a = b := by
  have hsub := (substr_iff.mp h).sublist
  have hdata : a.data = b.data :=
    hsub.eq_of_length_le (by simpa [toList_length] using hlen)
  cases a; cases b; cases hdata; rfl

theorem substr_lt {a b : String} (h : substr a b = true) (hne : a ≠ b) :
    a.length < b.length :=
  lt_of_le_of_ne (substr_length_le h)
    (fun heq => hne (substr_eq_of_length_ge h heq.ge))

theorem containsKanji_pos {s : String} (h : containsKanji s = true) :
    0 < s.length := by
  rcases List.any_eq_true.mp h with ⟨c, hc, _⟩
  have hc' : c ∈ s.toList := hc
  have : 0 < s.toList.length := List.length_pos_of_mem hc'
  simpa [toList_length] using this

/-! ## Behaviour of the token-matching loop -/

/-- Exact-match priority, loop level: if some token's text equals the element
text, and the `is_kanji` flags are the ones the tokenizer computes from the
text, then the loop returns the first such token, whatever partial match is
already recorded in the accumulator. -/
theorem findBestMatchAux_exact {elemText : String} {t₀ : Token}
    (hk : containsKanji elemText = true) :
    ∀ {tokens : List Token},
      (∀ t ∈ tokens, t.is_kanji = containsKanji t.text) →
      tokens.find? (fun t => t.text == elemText) = some t₀ →
      ∀ best bestLen, findBestMatchAux elemText tokens best bestLen = some t₀ := by
  intro tokens
  induction tokens with
  | nil => intro _ hfind; simp at hfind
  | cons t ts ih =>
    intro wf hfind best bestLen
    have wf' : ∀ t' ∈ ts, t'.is_kanji = containsKanji t'.text :=
      fun t' ht' => wf t' (List.mem_cons_of_mem t ht')
    by_cases heq : t.text = elemText
    · have hkanji : t.is_kanji = true := by
        rw [wf t (List.mem_cons_self t ts), heq, hk]
      have ht₀ : t = t₀ := by
        rw [List.find?_cons_of_pos] at hfind
        · exact Option.some.inj hfind
        · simp [heq]
      subst ht₀
      simp [findBestMatchAux, hkanji, heq]
    · have hfind' : ts.find? (fun t => t.text == elemText) = some t₀ := by
        rw [List.find?_cons_of_neg] at hfind
        · exact hfind
        · simp [heq]
      simp only [findBestMatchAux]
      by_cases hkj : t.is_kanji = true
      · rw [if_pos hkj, if_neg heq]
        by_cases h1 : substr t.text elemText = true ∧ t.text.length > bestLen
        · rw [if_pos h1]; exact ih wf' hfind' _ _
        · rw [if_neg h1]
          by_cases h2 : substr elemText t.text = true ∧ elemText.length > bestLen
          · rw [if_pos h2]; exact ih wf' hfind' _ _
          · rw [if_neg h2]; exact ih wf' hfind' _ _
      · rw [if_neg hkj]; exact ih wf' hfind' _ _

/-- If no ideograph-flagged token stands in any textual relation with the
element text, the loop never touches its accumulator. -/
theorem findBestMatchAux_noCand {elemText : String} :
    ∀ {tokens : List Token},
      (∀ t ∈ tokens, t.is_kanji = true →
        t.text ≠ elemText ∧ substr t.text elemText = false ∧
        substr elemText t.text = false) →
      ∀ best bestLen, findBestMatchAux elemText tokens best bestLen = best := by
  intro tokens
  induction tokens with
  | nil => intro _ best bestLen; rfl
  | cons t ts ih =>
    intro hno best bestLen
    have hno' : ∀ t' ∈ ts, t'.is_kanji = true →
        t'.text ≠ elemText ∧ substr t'.text elemText = false ∧
        substr elemText t'.text = false :=
      fun t' ht' => hno t' (List.mem_cons_of_mem t ht')
    simp only [findBestMatchAux]
    by_cases hkj : t.is_kanji = true
    · obtain ⟨hne, hs1, hs2⟩ := hno t (List.mem_cons_self t ts) hkj
      rw [if_pos hkj, if_neg hne, if_neg (by simp [hs1]), if_neg (by simp [hs2])]
      exact ih hno' best bestLen
    · rw [if_neg hkj]; exact ih hno' best bestLen

/-- Once the recorded score has reached the element's own length and no exact
match is present, the loop can never improve on its accumulator: a contained
token is too short to beat the score, and a containing token is scored by the
element length itself. -/
theorem findBestMatchAux_stuck {elemText : String} :
    ∀ {tokens : List Token},
      (∀ t ∈ tokens, t.is_kanji = true → t.text ≠ elemText) →
      ∀ best bestLen, elemText.length ≤ bestLen →
        findBestMatchAux elemText tokens best bestLen = best := by
  intro tokens
  induction tokens with
  | nil => intro _ best bestLen _; rfl
  | cons t ts ih =>
    intro hne best bestLen hlen
    have hne' : ∀ t' ∈ ts, t'.is_kanji = true → t'.text ≠ elemText :=
      fun t' ht' => hne t' (List.mem_cons_of_mem t ht')
    simp only [findBestMatchAux]
    by_cases hkj : t.is_kanji = true
    · have hq := hne t (List.mem_cons_self t ts) hkj
      rw [if_pos hkj, if_neg hq]
      have h1 : ¬(substr t.text elemText = true ∧ t.text.length > bestLen) := by
        rintro ⟨hs, hgt⟩
        exact absurd (lt_of_le_of_lt hlen hgt) (not_lt.mpr (substr_length_le hs))
      have h2 : ¬(substr elemText t.text = true ∧ elemText.length > bestLen) := by
        rintro ⟨_, hgt⟩
        exact absurd hgt (not_lt.mpr hlen)
      rw [if_neg h1, if_neg h2]
      exact ih hne' best bestLen hlen
    · rw [if_neg hkj]; exact ih hne' best bestLen hlen

/-- "Token contains fragment" case, loop level: with no exact match in the
list, the loop settles on the **first** ideograph-flagged token whose text
contains the element text, because the recorded score for that case is the
element's own length, which no later candidate can strictly beat. -/
theorem findBestMatchAux_first_containing {elemText : String} {t₀ : Token} :
    ∀ {tokens : List Token},
      (∀ t ∈ tokens, t.is_kanji = true → t.text ≠ elemText) →
      tokens.find? (fun t => t.is_kanji && substr elemText t.text) = some t₀ →
      ∀ best bestLen, bestLen < elemText.length →
        findBestMatchAux elemText tokens best bestLen = some t₀ := by
  intro tokens
  induction tokens with
  | nil => intro _ hfind; simp at hfind
  | cons t ts ih =>
    intro hne hfind best bestLen hlen
    have hne' : ∀ t' ∈ ts, t'.is_kanji = true → t'.text ≠ elemText :=
      fun t' ht' => hne t' (List.mem_cons_of_mem t ht')
    by_cases hp : (t.is_kanji && substr elemText t.text) = true
    · obtain ⟨hkj, hs2⟩ := Bool.and_eq_true_iff.mp hp
      have ht₀ : t = t₀ := by
        rw [List.find?_cons_of_pos] at hfind
        · exact Option.some.inj hfind
        · exact hp
      subst ht₀
      have hq := hne t (List.mem_cons_self t ts) hkj
      have h1 : ¬(substr t.text elemText = true ∧ t.text.length > bestLen) := by
        rintro ⟨hs1, _⟩
        exact hq (substr_eq_of_length_ge hs1 (substr_length_le hs2))
      simp only [findBestMatchAux]
      rw [if_pos hkj, if_neg hq, if_neg h1, if_pos ⟨hs2, hlen⟩]
      exact findBestMatchAux_stuck hne' (some t) elemText.length le_rfl
    · have hfind' : ts.find? (fun t => t.is_kanji && substr elemText t.text) = some t₀ := by
        rw [List.find?_cons_of_neg] at hfind
        · exact hfind
        · exact hp
      simp only [findBestMatchAux]
      by_cases hkj : t.is_kanji = true
      · have hs2 : substr elemText t.text = false := by
          cases hs : substr elemText t.text
          · rfl
          · exact absurd (by rw [hkj, hs]; rfl) hp
        have hq := hne t (List.mem_cons_self t ts) hkj
        rw [if_pos hkj, if_neg hq]
        by_cases h1 : substr t.text elemText = true ∧ t.text.length > bestLen
        · rw [if_pos h1]
          exact ih hne' hfind' (some t) t.text.length (substr_lt h1.1 hq)
        · rw [if_neg h1, if_neg (by simp [hs2])]
          exact ih hne' hfind' best bestLen hlen
      · rw [if_neg hkj]
        exact ih hne' hfind' best bestLen hlen

/-- "Fragment contains token" case, loop level, stuck form: with no exact
match and no containing token, the loop keeps its accumulator whenever every
contained candidate's token length is already at or below the recorded
score. -/
theorem findBestMatchAux_contained_stuck {elemText : String} :
    ∀ {tokens : List Token} {best : Option Token} {bestLen : Nat},
      (∀ t ∈ tokens, t.is_kanji = true → t.text ≠ elemText) →
      (∀ t ∈ tokens, t.is_kanji = true → substr elemText t.text = false) →
      (∀ t ∈ tokens, t.is_kanji = true → substr t.text elemText = true →
        t.text.length ≤ bestLen) →
      findBestMatchAux elemText tokens best bestLen = best := by
  intro tokens
  induction tokens with
  | nil => intro best bestLen _ _ _; rfl
  | cons t ts ih =>
    intro best bestLen hne hnc hsmall
    have tail₁ : ∀ t' ∈ ts, t'.is_kanji = true → t'.text ≠ elemText :=
      fun t' ht' => hne t' (List.mem_cons_of_mem t ht')
    have tail₂ : ∀ t' ∈ ts, t'.is_kanji = true → substr elemText t'.text = false :=
      fun t' ht' => hnc t' (List.mem_cons_of_mem t ht')
    have tail₃ : ∀ t' ∈ ts, t'.is_kanji = true → substr t'.text elemText = true →
        t'.text.length ≤ bestLen :=
      fun t' ht' => hsmall t' (List.mem_cons_of_mem t ht')
    simp only [findBestMatchAux]
    by_cases hkj : t.is_kanji = true
    · have hq := hne t (List.mem_cons_self t ts) hkj
      have h1 : ¬(substr t.text elemText = true ∧ t.text.length > bestLen) := by
        rintro ⟨hs, hgt⟩
        exact absurd hgt (not_lt.mpr (hsmall t (List.mem_cons_self t ts) hkj hs))
      have h2 : ¬(substr elemText t.text = true ∧ elemText.length > bestLen) := by
        rintro ⟨hs, _⟩
        rw [hnc t (List.mem_cons_self t ts) hkj] at hs
        exact Bool.false_ne_true hs
      rw [if_pos hkj, if_neg hq, if_neg h1, if_neg h2]
      exact ih tail₁ tail₂ tail₃
    · rw [if_neg hkj]
      exact ih tail₁ tail₂ tail₃

/-- "Fragment contains token" case, loop level, progress form: with no exact
match and no containing token, and some contained candidate strictly beating
the recorded score, the loop's answer is the first contained candidate of
maximal token length: every candidate before it is strictly shorter and every
candidate after it no longer. -/
theorem findBestMatchAux_contained_max {elemText : String} :
    ∀ {tokens : List Token} (best : Option Token) (bestLen : Nat),
      (∀ t ∈ tokens, t.is_kanji = true → t.text ≠ elemText) →
      (∀ t ∈ tokens, t.is_kanji = true → substr elemText t.text = false) →
      (∃ t ∈ tokens, t.is_kanji = true ∧ substr t.text elemText = true ∧
        bestLen < t.text.length) →
      ∃ l₁ t₀ l₂, tokens = l₁ ++ t₀ :: l₂ ∧
        findBestMatchAux elemText tokens best bestLen = some t₀ ∧
        t₀.is_kanji = true ∧ substr t₀.text elemText = true ∧
        bestLen < t₀.text.length ∧
        (∀ t ∈ l₁, t.is_kanji = true → substr t.text elemText = true →
          t.text.length < t₀.text.length) ∧
        (∀ t ∈ l₂, t.is_kanji = true → substr t.text elemText = true →
          t.text.length ≤ t₀.text.length) := by
  intro tokens
  induction tokens with
  | nil => intro best bestLen _ _ hex; simp at hex
  | cons t ts ih =>
    intro best bestLen hne hnc hex
    have tail₁ : ∀ t' ∈ ts, t'.is_kanji = true → t'.text ≠ elemText :=
      fun t' ht' => hne t' (List.mem_cons_of_mem t ht')
    have tail₂ : ∀ t' ∈ ts, t'.is_kanji = true → substr elemText t'.text = false :=
      fun t' ht' => hnc t' (List.mem_cons_of_mem t ht')
    by_cases hfire : t.is_kanji = true ∧ substr t.text elemText = true ∧
        bestLen < t.text.length
    · obtain ⟨hkj, hs1, hgt⟩ := hfire
      have hq := hne t (List.mem_cons_self t ts) hkj
      have hstep : findBestMatchAux elemText (t :: ts) best bestLen =
          findBestMatchAux elemText ts (some t) t.text.length := by
        simp only [findBestMatchAux]
        rw [if_pos hkj, if_neg hq, if_pos ⟨hs1, hgt⟩]
      by_cases himp : ∃ t' ∈ ts, t'.is_kanji = true ∧
          substr t'.text elemText = true ∧ t.text.length < t'.text.length
      · obtain ⟨l₁, t₀, l₂, hsplit, hval, hk₀, hs₀, hgt₀, hbefore, hafter⟩ :=
          ih (some t) t.text.length tail₁ tail₂ himp
        refine ⟨t :: l₁, t₀, l₂, by rw [hsplit, List.cons_append], ?_, hk₀, hs₀,
          lt_trans hgt hgt₀, ?_, hafter⟩
        · rw [hstep, hval]
        · intro t' ht' _ _
          rcases List.mem_cons.mp ht' with h | h
          · subst h; exact hgt₀
          · exact hbefore t' h (by assumption) (by assumption)
      · push_neg at himp
        refine ⟨[], t, ts, rfl, ?_, hkj, hs1, hgt, by simp, ?_⟩
        · rw [hstep]
          exact findBestMatchAux_contained_stuck tail₁ tail₂
            (fun t' ht' hk' hs' => himp t' ht' hk' hs')
        · exact fun t' ht' hk' hs' => himp t' ht' hk' hs'
    · have hwit : ∃ t' ∈ ts, t'.is_kanji = true ∧
          substr t'.text elemText = true ∧ bestLen < t'.text.length := by
        obtain ⟨w, hw, hwprops⟩ := hex
        rcases List.mem_cons.mp hw with h | h
        · exact absurd (h ▸ hwprops) hfire
        · exact ⟨w, h, hwprops⟩
      have hstep : findBestMatchAux elemText (t :: ts) best bestLen =
          findBestMatchAux elemText ts best bestLen := by
        simp only [findBestMatchAux]
        by_cases hkj : t.is_kanji = true
        · have hq := hne t (List.mem_cons_self t ts) hkj
          have h1 : ¬(substr t.text elemText = true ∧ t.text.length > bestLen) :=
            fun ⟨hs, hgt⟩ => hfire ⟨hkj, hs, hgt⟩
          have h2 : ¬(substr elemText t.text = true ∧ elemText.length > bestLen) := by
            rintro ⟨hs, _⟩
            rw [hnc t (List.mem_cons_self t ts) hkj] at hs
            exact Bool.false_ne_true hs
          rw [if_pos hkj, if_neg hq, if_neg h1, if_neg h2]
        · rw [if_neg hkj]
      obtain ⟨l₁, t₀, l₂, hsplit, hval, hk₀, hs₀, hgt₀, hbefore, hafter⟩ :=
        ih best bestLen tail₁ tail₂ hwit
      refine ⟨t :: l₁, t₀, l₂, by rw [hsplit, List.cons_append], ?_, hk₀, hs₀, hgt₀, ?_, hafter⟩
      · rw [hstep, hval]
      · intro t' ht' hk' hs'
        rcases List.mem_cons.mp ht' with h | h
        · subst h
          have : ¬ bestLen < t'.text.length := fun hlt => hfire ⟨hk', hs', hlt⟩
          exact lt_of_le_of_lt (not_lt.mp this) hgt₀
        · exact hbefore t' h hk' hs'

/-- Only ideograph-flagged tokens are ever written into the accumulator, so a
token returned by the loop is ideograph-flagged as soon as the initial
accumulator is. -/
theorem findBestMatchAux_isKanji {elemText : String} :
    ∀ {tokens : List Token} {best : Option Token} {bestLen : Nat},
      (∀ b, best = some b → b.is_kanji = true) →
      ∀ t, findBestMatchAux elemText tokens best bestLen = some t →
        t.is_kanji = true := by
  intro tokens
  induction tokens with
  | nil =>
    intro best bestLen hbest t ht
    exact hbest t ht
  | cons tk ts ih =>
    intro best bestLen hbest t ht
    simp only [findBestMatchAux] at ht
    by_cases hkj : tk.is_kanji = true
    · rw [if_pos hkj] at ht
      by_cases heq : tk.text = elemText
      · rw [if_pos heq] at ht
        cases Option.some.inj ht
        exact hkj
      · rw [if_neg heq] at ht
        by_cases h1 : substr tk.text elemText = true ∧ tk.text.length > bestLen
        · rw [if_pos h1] at ht
          exact ih (fun b hb => by cases Option.some.inj hb; exact hkj) t ht
        · rw [if_neg h1] at ht
          by_cases h2 : substr elemText tk.text = true ∧ elemText.length > bestLen
          · rw [if_pos h2] at ht
            exact ih (fun b hb => by cases Option.some.inj hb; exact hkj) t ht
          · rw [if_neg h2] at ht
            exact ih hbest t ht
    · rw [if_neg hkj] at ht
      exact ih hbest t ht

/-! ## Behaviour of the reconciliation loop -/

/-- A fragment whose text carries no kanji never changes the loop state. -/
theorem reconcileStep_skip_noKanji {dr : String → Option String}
    {vocab : List (String × String)} {tokens : List Token} {e : Fragment}
    (hk : containsKanji e.text = false)
    (acc : List Annotation × List (Int × Int × String)) :
    reconcileStep dr vocab tokens acc e = acc := by
  unfold reconcileStep
  by_cases hseen : fragKey e ∈ acc.2
  · simp [hseen]
  · simp [hseen, hk]

/-- A fragment with no token match whose direct reading lookup fails never
changes the loop state. -/
theorem reconcileStep_skip_failedFallback {dr : String → Option String}
    {vocab : List (String × String)} {tokens : List Token} {e : Fragment}
    (hnom : findBestMatch tokens e.text = none) (hdr : dr e.text = none)
    (acc : List Annotation × List (Int × Int × String)) :
    reconcileStep dr vocab tokens acc e = acc := by
  unfold reconcileStep
  by_cases hseen : fragKey e ∈ acc.2
  · simp [hseen]
  · by_cases hk : containsKanji e.text = false
    · simp [hseen, hk]
    · simp [hseen, hk, hnom, hdr]

/-- Deleting a fragment that never changes the loop state from anywhere in
the input list leaves the Reconciler's output unchanged. -/
theorem reconcile_erase (dr : String → Option String)
    (vocab : List (String × String)) (tokens : List Token) {e : Fragment}
    (hstep : ∀ acc, reconcileStep dr vocab tokens acc e = acc)
    (pre post : List Fragment) :
    reconcile dr vocab tokens (pre ++ e :: post) =
      reconcile dr vocab tokens (pre ++ post) := by
  unfold reconcile
  rw [List.foldl_append, List.foldl_append, List.foldl_cons, hstep]

/-- The loop invariant behind deduplication: every annotation's key is
recorded in `seen_positions`, and the produced annotations have pairwise
distinct keys. -/
def reconcileInv (acc : List Annotation × List (Int × Int × String)) : Prop :=
  (∀ a ∈ acc.1, annKey a ∈ acc.2) ∧
    acc.1.Pairwise (fun a b => annKey a ≠ annKey b)

theorem reconcileStep_inv {dr : String → Option String}
    {vocab : List (String × String)} {tokens : List Token}
    {acc : List Annotation × List (Int × Int × String)} {e : Fragment}
    (h : reconcileInv acc) : reconcileInv (reconcileStep dr vocab tokens acc e) := by
  obtain ⟨hkeys, hpw⟩ := h
  unfold reconcileStep
  by_cases hseen : fragKey e ∈ acc.2
  · simpa [hseen] using ⟨hkeys, hpw⟩
  · by_cases hk : containsKanji e.text = false
    · simpa [hseen, hk] using ⟨hkeys, hpw⟩
    · have hfresh : ∀ a ∈ acc.1, annKey a ≠ fragKey e :=
        fun a ha heq => hseen (heq ▸ hkeys a ha)
      have hnewkeys : ∀ (ann : Annotation), annKey ann = fragKey e →
          ∀ a ∈ acc.1 ++ [ann], annKey a ∈ acc.2 ++ [fragKey e] := by
        intro ann hkey a ha
        rcases List.mem_append.mp ha with h | h
        · exact List.mem_append.mpr (Or.inl (hkeys a h))
        · simp at h
          subst h
          exact List.mem_append.mpr (Or.inr (by simp [hkey]))
      have hnewpw : ∀ (ann : Annotation), annKey ann = fragKey e →
          (acc.1 ++ [ann]).Pairwise (fun a b => annKey a ≠ annKey b) := by
        intro ann hkey
        rw [List.pairwise_append]
        refine ⟨hpw, List.pairwise_singleton _ _, ?_⟩
        intro a ha b hb
        simp at hb
        subst hb
        rw [hkey]
        exact hfresh a ha
      rw [if_neg hseen, if_neg hk]
      cases hm : findBestMatch tokens e.text with
      | some best =>
        exact ⟨hnewkeys _ rfl, hnewpw _ rfl⟩
      | none =>
        cases hdr : dr e.text with
        | some hira => exact ⟨hnewkeys _ rfl, hnewpw _ rfl⟩
        | none => exact ⟨hkeys, hpw⟩

theorem reconcile_foldl_inv (dr : String → Option String)
    (vocab : List (String × String)) (tokens : List Token) :
    ∀ (elems : List Fragment) (acc : List Annotation × List (Int × Int × String)),
      reconcileInv acc →
      reconcileInv (elems.foldl (reconcileStep dr vocab tokens) acc) := by
  intro elems
  induction elems with
  | nil => intro acc h; exact h
  | cons e es ih =>
    intro acc h
    rw [List.foldl_cons]
    exact ih _ (reconcileStep_inv h)

/-- Any property that holds of every annotation the loop can append also
holds of every annotation the Reconciler outputs. -/
theorem reconcile_forall {dr : String → Option String}
    {vocab : List (String × String)} {tokens : List Token}
    (P : Annotation → Prop)
    (hmatch : ∀ (e : Fragment) (best : Token), containsKanji e.text = true →
      findBestMatch tokens e.text = some best →
      P ⟨e.text, best.hiragana,
         (if dictGet vocab best.text best.meaning = "" then ""
          else dictGet vocab best.text best.meaning), e.x, e.y, e.w, e.h⟩)
    (hfall : ∀ (e : Fragment) (hira : String), containsKanji e.text = true →
      findBestMatch tokens e.text = none → dr e.text = some hira →
      P ⟨e.text, hira, "", e.x, e.y, e.w, e.h⟩) :
    ∀ (elems : List Fragment), ∀ a ∈ reconcile dr vocab tokens elems, P a := by
  have hstep : ∀ (acc : List Annotation × List (Int × Int × String)) (e : Fragment),
      (∀ a ∈ acc.1, P a) →
      ∀ a ∈ (reconcileStep dr vocab tokens acc e).1, P a := by
    intro acc e hacc
    unfold reconcileStep
    by_cases hseen : fragKey e ∈ acc.2
    · simpa [hseen] using hacc
    · by_cases hk : containsKanji e.text = false
      · simpa [hseen, hk] using hacc
      · rw [if_neg hseen, if_neg hk]
        have hk' : containsKanji e.text = true := by
          cases h : containsKanji e.text
          · exact absurd h hk
          · rfl
        cases hm : findBestMatch tokens e.text with
        | some best =>
          intro a ha
          rcases List.mem_append.mp ha with h | h
          · exact hacc a h
          · simp at h
            subst h
            exact hmatch e best hk' hm
        | none =>
          cases hdr : dr e.text with
          | some hira =>
            intro a ha
            rcases List.mem_append.mp ha with h | h
            · exact hacc a h
            · simp at h
              subst h
              exact hfall e hira hk' hm hdr
          | none => exact hacc
  have hfold : ∀ (elems : List Fragment)
      (acc : List Annotation × List (Int × Int × String)),
      (∀ a ∈ acc.1, P a) →
      ∀ a ∈ (elems.foldl (reconcileStep dr vocab tokens) acc).1, P a := by
    intro elems
    induction elems with
    | nil => intro acc h; exact h
    | cons e es ih =>
      intro acc h
      rw [List.foldl_cons]
      exact ih _ (hstep acc e h)
  intro elems
  exact hfold elems ([], []) (by intro a ha; simp at ha)

/-! ## Layout Engine (`agents/visualization_agent.py`) -/

/-- An image buffer, identified by its numpy shape (the pixel contents are
produced and consumed only by the external PIL/cv2 collaborators, which the
claims treated here never inspect). -/
structure NpImage where
  shape : List Nat
deriving DecidableEq, Repr

/-- `VisualizationAgent._calculate_line_spacing`: sort the distinct `y`
positions of the annotations, average the consecutive gaps, truncate to an
integer; fewer than two annotations or fewer than two distinct lines gives
the fixed default of 50. -/
def calculateLineSpacing (annotations : List Annotation) : Int :=
  if annotations.length < 2 then 50
  else
    let ys := List.insertionSort (· ≤ ·) ((annotations.map (fun a => a.y)).eraseDups)
    if ys.length < 2 then 50
    else
      let spacings := List.zipWith (fun b a => b - a) ys.tail ys
      if spacings = [] then 50 else Int.tdiv spacings.sum spacings.length

/-- The font-size tiers of `VisualizationAgent.annotate` (lines 63–68):
spacing below 30 gives size 8, spacing in [30, 50) gives size 10, anything
else gives size 12. -/
def selectFontSize (lineSpacing : Int) : Nat :=
  if lineSpacing < 30 then 8
  else if lineSpacing < 50 then 10
  else 12

/-- `VisualizationAgent.annotate`: validate that the buffer has shape
`(H, W, 3)`, then hand the drawing to the external PIL/cv2 pipeline
(`render`, whose `none` models any exception inside the `try` block, caught
and answered with a copy of the untouched input image).  The shape check
fails before any drawing, as an error that propagates to the caller. -/
def annotate (render : NpImage → List Annotation → Option NpImage)
    (image : NpImage) (annotations : List Annotation) : Except String NpImage :=
  if image.shape.length ≠ 3 then
    Except.error "Invalid image shape"
  else if image.shape.getD 2 0 ≠ 3 then
    Except.error "Invalid image shape"
  else
    match render image annotations with
    | some result => Except.ok result
    | none => Except.ok image

/-! ## Analyzer (`agents/llm_agent.py`) and Pipeline Controller
(`workflow/graph.py`) -/

/-- The `LLMAnalysis` dataclass. -/
structure LLMAnalysis where
  translation : String
  grammar_patterns : List String
deriving DecidableEq, Repr

/-- `LLMAgent.analyze`: the Groq HTTP call, status check, JSON decoding and
response parsing all live inside one `try` block, modelled by `attempt`
(`none` = any exception, including a timeout; `some a` = the parsed
analysis).  On failure the sentinel analysis is returned instead of
propagating. -/
def analyze (attempt : Option LLMAnalysis) : LLMAnalysis :=
  match attempt with
  | some parsed => parsed
  | none => { translation := "Analysis unavailable", grammar_patterns := [] }

/-- The vocabulary map built in `_nlp_node` (graph.py lines 62–67): one
`text → meaning` entry per ideograph-bearing token with a non-empty meaning,
later tokens overwriting earlier entries for the same text, Python-dict
style. -/
def dictInsert (m : List (String × String)) (k v : String) :
    List (String × String) :=
  if m.any (fun p => p.1 == k) then
    m.map (fun p => if p.1 == k then (k, v) else p)
  else
    m ++ [(k, v)]

def buildVocabulary (tokens : List Token) : List (String × String) :=
  tokens.foldl
    (fun m t => if t.is_kanji = true ∧ t.meaning ≠ "" then
        dictInsert m t.text t.meaning
      else m) []

/-- The deduplicated vocabulary list of `_format_output` (graph.py lines
287–297): first annotation per source text, only those with a meaning. -/
def vocabListAux : List Annotation → List String → List (String × String × String)
  | [], _ => []
  | a :: rest, seen =>
    if a.kanji ∉ seen ∧ a.meaning ≠ "" then
      (a.kanji, a.hiragana, a.meaning) :: vocabListAux rest (seen ++ [a.kanji])
    else
      vocabListAux rest seen

/-- The report assembled by `_format_output`: always `success: true`, the
translation and grammar patterns as produced by the LLM node, the vocabulary
list capped at 100 entries, plus the counters. -/
structure PipelineReport where
  success : Bool
  full_text : String
  elements_count : Nat
  lines_count : Nat
  vocabulary : List (String × String × String)
  translation : String
  grammar_patterns : List String
  annotated_image : String
  total_annotations : Nat
deriving DecidableEq, Repr

def formatOutput (fullText : String) (elemsCount linesCount : Nat)
    (translation : String) (grammarPatterns : List String)
    (annotations : List Annotation) (imagePath : String) : PipelineReport :=
  { success := true
    full_text := fullText
    elements_count := elemsCount
    lines_count := linesCount
    vocabulary := (vocabListAux annotations []).take 100
    translation := translation
    grammar_patterns := grammarPatterns
    annotated_image := imagePath
    total_annotations := annotations.length }

/-- Outcome of `JapaneseTextWorkflow.process`: the formatted report on
success, or the structured `success: false` failure record when a stage
raised. -/
inductive ProcessResult where
  | ok (report : PipelineReport)
  | failed (error : String)
deriving DecidableEq, Repr

/-- `JapaneseTextWorkflow.process` with the stage collaborators made
explicit: `ocrResult` is `extract_text` (elements, full text, line count;
`none` = the OCR stage raised), `tokensResult` is `tokenize` (`none` = the
NLP stage raised), `llmAttempt` feeds `analyze` (`none` = the Groq call
failed, which `analyze` absorbs), `directReading` is the pykakasi fallback,
and `saveResult` is the `cv2.imwrite` outcome (`none` = saving raised, which
aborts the workflow).  Any stage exception yields the structured failure
record instead of a report. -/
def process (directReading : String → Option String)
    (ocrResult : Option (List Fragment × String × Nat))
    (tokensResult : Option (List Token))
    (llmAttempt : Option LLMAnalysis)
    (saveResult : Option String) : ProcessResult :=
  match ocrResult with
  | none => ProcessResult.failed "ocr stage raised"
  | some (elems, fullText, linesCount) =>
    match tokensResult with
    | none => ProcessResult.failed "nlp stage raised"
    | some tokens =>
      let analysis := analyze llmAttempt
      let vocab := buildVocabulary tokens
      let annotations := reconcile directReading vocab tokens elems
      match saveResult with
      | none => ProcessResult.failed "saving annotated image raised"
      | some path =>
        ProcessResult.ok (formatOutput fullText elems.length linesCount
          analysis.translation analysis.grammar_patterns annotations path)

/-! ## Concrete data for witnesses and counterexamples -/

def tokNihon : Token :=
  ⟨"日本", "名詞", "にほん", "ニホン", "nihon", true, "Japan"⟩

def tokNihongo : Token :=
  ⟨"日本語", "名詞", "にほんご", "ニホンゴ", "nihongo", true, "Japanese language"⟩

def fragNihongo : Fragment := ⟨"日本語", 10, 50, 60, 20⟩

def demoAnnotation : Annotation :=
  ⟨"日本語", "にほんご", "Japanese language", 10, 50, 60, 20⟩

def demoAnns : List Annotation :=
  [⟨"日", "にち", "", 0, 10, 5, 5⟩, ⟨"本", "ほん", "", 0, 30, 5, 5⟩,
   ⟨"語", "ご", "", 0, 52, 5, 5⟩]

/-! ## The claims -/

/-- **C1**: for every ideograph-bearing fragment, if some token's text equals
the fragment's text then the produced annotation takes its reading from the
hiragana reading of the *first* such token — the search short-circuits on the
first exact match, and no token whose text is merely a substring match can
displace it.  The token list is assumed to carry the `is_kanji` flags the
tokenizer computes from each token's own text. -/
theorem exact_match_priority (dr : String → Option String)
    (vocab : List (String × String)) (tokens : List Token)
    (elems : List Fragment)
    (wf : ∀ t ∈ tokens, t.is_kanji = containsKanji t.text) :
    ∀ a ∈ reconcile dr vocab tokens elems, ∀ t₀ : Token,
      tokens.find? (fun t => t.text == a.kanji) = some t₀ →
      a.hiragana = t₀.hiragana := by
  intro a ha
  refine reconcile_forall
    (fun a => ∀ t₀ : Token,
      tokens.find? (fun t => t.text == a.kanji) = some t₀ →
      a.hiragana = t₀.hiragana) ?_ ?_ elems a ha
  · intro e best hk hm t₀ hfind
    have hbm : findBestMatch tokens e.text = some t₀ :=
      findBestMatchAux_exact hk wf hfind none 0
    rw [hm] at hbm
    cases Option.some.inj hbm
    rfl
  · intro e hira hk hm hdr t₀ hfind
    have hbm : findBestMatch tokens e.text = some t₀ :=
      findBestMatchAux_exact hk wf hfind none 0
    rw [hm] at hbm
    exact Option.noConfusion hbm

/-- Witness for C1: the spec's end-to-end scenario.  The fragment `日本語`
matches the exact token `日本語` (reading `にほんご`) even though the token
`日本` appears first in the list as a substring match. -/
theorem exact_match_priority_witness : demoAnnotation.hiragana = tokNihongo.hiragana :=
  exact_match_priority (fun _ => none) (buildVocabulary [tokNihon, tokNihongo])
    [tokNihon, tokNihongo] [fragNihongo] (by decide) demoAnnotation (by decide)
    tokNihongo (by decide)

/-- **C2**, counterexample: fragment `日` is a proper substring of both token
`日本` (length 2) and token `日本語` (length 3).  The claim says the longest
containing token (`日本語`) is selected; the code selects the first one
(`日本`), because this case records the fragment's own length as the score,
which the later, longer candidate cannot strictly beat. -/
theorem containing_longest_refuted :
    substr "日" tokNihon.text = true ∧ substr "日" tokNihongo.text = true ∧
    tokNihon.text ≠ "日" ∧ tokNihongo.text ≠ "日" ∧
    tokNihon.is_kanji = true ∧ tokNihongo.is_kanji = true ∧
    tokNihon.text.length < tokNihongo.text.length ∧
    findBestMatch [tokNihon, tokNihongo] "日" = some tokNihon ∧
    findBestMatch [tokNihon, tokNihongo] "日" ≠ some tokNihongo := by
  decide

/-- **C2** (amended): in the token-contains-fragment case with no exact match,
the Reconciler selects the **first** containing token in iteration order; the
recorded score is the fragment's own text length, identical for every
containing candidate, so no later containing token — however long — replaces
the first one. -/
theorem token_contains_fragment_first (tokens : List Token) (elemText : String)
    (t₀ : Token) (hk : containsKanji elemText = true)
    (hnoexact : ∀ t ∈ tokens, t.is_kanji = true → t.text ≠ elemText)
    (hfind : tokens.find? (fun t => t.is_kanji && substr elemText t.text) = some t₀) :
    findBestMatch tokens elemText = some t₀ :=
  findBestMatchAux_first_containing hnoexact hfind none 0 (containsKanji_pos hk)

/-- Witness for the amended C2, at the counterexample's own input: the first
containing token `日本` wins. -/
theorem token_contains_fragment_first_witness :
    findBestMatch [tokNihon, tokNihongo] "日" = some tokNihon :=
  token_contains_fragment_first [tokNihon, tokNihongo] "日" tokNihon
    (by decide) (by decide) (by decide)

/-- **C3**, counterexample: fragment `日本語学` strictly contains both token
`日本` (length 2, first) and token `日本語` (length 3, second).  Were the
running score the fragment's own text length as claimed, it would be 4 after
the first candidate and a replacement would need the fragment length to
exceed it — `4 > 4` is false, so the result would stay the first candidate
`日本`.  The code instead answers the longer second candidate `日本語`,
because this case scores by the matched token's length. -/
theorem fragment_score_refuted :
    substr tokNihon.text "日本語学" = true ∧
    substr tokNihongo.text "日本語学" = true ∧
    tokNihon.is_kanji = true ∧ tokNihongo.is_kanji = true ∧
    ¬(("日本語学" : String).length > ("日本語学" : String).length) ∧
    findBestMatch [tokNihon, tokNihongo] "日本語学" = some tokNihongo ∧
    findBestMatch [tokNihon, tokNihongo] "日本語学" ≠ some tokNihon := by
  decide

/-- **C3** (amended): in the fragment-contains-token case with no exact match
and no containing token, the running best-match score is the matched
**token's** text length, so a contained candidate replaces the current best
exactly when its token text is strictly longer; consequently the loop answers
the first contained candidate of maximal token length — candidates before it
are strictly shorter, candidates after it are no longer. -/
theorem fragment_contains_token_longest (tokens : List Token) (elemText : String)
    (wf : ∀ t ∈ tokens, t.is_kanji = containsKanji t.text)
    (hnoexact : ∀ t ∈ tokens, t.is_kanji = true → t.text ≠ elemText)
    (hnocont : ∀ t ∈ tokens, t.is_kanji = true → substr elemText t.text = false)
    (hex : ∃ t ∈ tokens, t.is_kanji = true ∧ substr t.text elemText = true) :
    ∃ l₁ t₀ l₂, tokens = l₁ ++ t₀ :: l₂ ∧
      findBestMatch tokens elemText = some t₀ ∧
      t₀.is_kanji = true ∧ substr t₀.text elemText = true ∧
      (∀ t ∈ l₁, t.is_kanji = true → substr t.text elemText = true →
        t.text.length < t₀.text.length) ∧
      (∀ t ∈ l₂, t.is_kanji = true → substr t.text elemText = true →
        t.text.length ≤ t₀.text.length) := by
  obtain ⟨w, hw, hwk, hws⟩ := hex
  have hpos : 0 < w.text.length := by
    have hwf := wf w hw
    rw [hwk] at hwf
    exact containsKanji_pos hwf.symm
  obtain ⟨l₁, t₀, l₂, hsplit, hval, hk₀, hs₀, _, hbefore, hafter⟩ :=
    findBestMatchAux_contained_max none 0 hnoexact hnocont
      ⟨w, hw, hwk, hws, hpos⟩
  exact ⟨l₁, t₀, l₂, hsplit, hval, hk₀, hs₀, hbefore, hafter⟩

/-- Witness for the amended C3, at the counterexample's own input: the list
splits around the maximal contained token `日本語`. -/
theorem fragment_contains_token_longest_witness :
    ∃ l₁ t₀ l₂, [tokNihon, tokNihongo] = l₁ ++ t₀ :: l₂ ∧
      findBestMatch [tokNihon, tokNihongo] "日本語学" = some t₀ ∧
      t₀.is_kanji = true ∧ substr t₀.text "日本語学" = true ∧
      (∀ t ∈ l₁, t.is_kanji = true → substr t.text "日本語学" = true →
        t.text.length < t₀.text.length) ∧
      (∀ t ∈ l₂, t.is_kanji = true → substr t.text "日本語学" = true →
        t.text.length ≤ t₀.text.length) :=
  fragment_contains_token_longest [tokNihon, tokNihongo] "日本語学"
    (by decide) (by decide) (by decide) ⟨tokNihon, by decide, by decide, by decide⟩

/-- A fragment whose key is already recorded in `seen_positions` never
changes the loop state. -/
theorem reconcileStep_skip_seen {dr : String → Option String}
    {vocab : List (String × String)} {tokens : List Token} {e : Fragment}
    {acc : List Annotation × List (Int × Int × String)}
    (hseen : fragKey e ∈ acc.2) :
    reconcileStep dr vocab tokens acc e = acc := by
  unfold reconcileStep
  simp [hseen]

/-- **C4**: for every input fragment list — duplicates at identical positions
included — the Reconciler's output contains no two annotations with the same
`(x, y, sourceText)` key; and once some fragment has produced an annotation
with a given key, appending a later fragment carrying that same key leaves
the output unchanged (the later fragment is dropped, not duplicated). -/
theorem annotation_keys_unique :
    (∀ (dr : String → Option String) (vocab : List (String × String))
        (tokens : List Token) (elems : List Fragment),
      (reconcile dr vocab tokens elems).Pairwise (fun a b => annKey a ≠ annKey b)) ∧
    (∀ (dr : String → Option String) (vocab : List (String × String))
        (tokens : List Token) (elems : List Fragment) (e : Fragment),
      (∃ a ∈ reconcile dr vocab tokens elems, annKey a = fragKey e) →
      reconcile dr vocab tokens (elems ++ [e]) = reconcile dr vocab tokens elems) := by
  constructor
  · intro dr vocab tokens elems
    exact (reconcile_foldl_inv dr vocab tokens elems ([], []) ⟨by simp, by simp⟩).2
  · rintro dr vocab tokens elems e ⟨a, ha, hkey⟩
    have hinv := reconcile_foldl_inv dr vocab tokens elems ([], []) ⟨by simp, by simp⟩
    have hseen : fragKey e ∈ (elems.foldl (reconcileStep dr vocab tokens) ([], [])).2 :=
      hkey ▸ hinv.1 a ha
    unfold reconcile
    rw [List.foldl_append, List.foldl_cons, List.foldl_nil,
      reconcileStep_skip_seen hseen]

/-- Witness for C4: a duplicated fragment at an identical position is dropped
the second time around. -/
theorem annotation_keys_unique_witness :
    reconcile (fun _ => some "かんじ") [] [] ([⟨"漢字", 1, 2, 30, 12⟩] ++ [⟨"漢字", 1, 2, 30, 12⟩]) =
      reconcile (fun _ => some "かんじ") [] [] [⟨"漢字", 1, 2, 30, 12⟩] :=
  annotation_keys_unique.2 (fun _ => some "かんじ") [] [] [⟨"漢字", 1, 2, 30, 12⟩]
    ⟨"漢字", 1, 2, 30, 12⟩ ⟨⟨"漢字", "かんじ", "", 1, 2, 30, 12⟩, by decide, by decide⟩

/-- **C5**: a kanji-bearing fragment that stands in no textual relation to any
ideograph-flagged token takes the direct-reading fallback: when the lookup
answers, the produced annotation carries exactly that reading and an empty
gloss; when the lookup itself raises, the failure is swallowed and the
fragment is simply omitted — deleting it from the input, anywhere in the
list, leaves the Reconciler's output unchanged. -/
theorem fallback_reading (dr : String → Option String)
    (vocab : List (String × String)) (tokens : List Token) (e : Fragment)
    (hk : containsKanji e.text = true)
    (hnom : ∀ t ∈ tokens, t.is_kanji = true →
      t.text ≠ e.text ∧ substr t.text e.text = false ∧
      substr e.text t.text = false) :
    (∀ hira, dr e.text = some hira →
      reconcile dr vocab tokens [e] = [⟨e.text, hira, "", e.x, e.y, e.w, e.h⟩]) ∧
    (dr e.text = none → ∀ pre post,
      reconcile dr vocab tokens (pre ++ e :: post) =
        reconcile dr vocab tokens (pre ++ post)) := by
  have hfm : findBestMatch tokens e.text = none :=
    findBestMatchAux_noCand hnom none 0
  constructor
  · intro hira hdr
    unfold reconcile reconcileStep
    rw [List.foldl_cons, List.foldl_nil]
    simp [hk, hfm, hdr]
  · intro hdr pre post
    exact reconcile_erase dr vocab tokens
      (fun acc => reconcileStep_skip_failedFallback hfm hdr acc) pre post

/-- Witness for C5: with no tokens at all, the fragment `漢字` gets the
direct reading when the lookup answers, and is silently dropped when the
lookup raises. -/
theorem fallback_reading_witness :
    reconcile (fun _ => some "かんじ") [] [] [⟨"漢字", 4, 9, 30, 12⟩] =
      [⟨"漢字", "かんじ", "", 4, 9, 30, 12⟩] ∧
    reconcile (fun _ => none) [] [] ([] ++ ⟨"漢字", 4, 9, 30, 12⟩ :: []) =
      reconcile (fun _ => none) [] [] ([] ++ []) :=
  ⟨(fallback_reading (fun _ => some "かんじ") [] [] ⟨"漢字", 4, 9, 30, 12⟩
      (by decide) (by simp)).1 "かんじ" rfl,
   (fallback_reading (fun _ => none) [] [] ⟨"漢字", 4, 9, 30, 12⟩
      (by decide) (by simp)).2 rfl [] []⟩

/-- **C9**: a fragment whose text contains no ideograph produces no
annotation: on its own it yields the empty output, and deleting it from
anywhere in the input list leaves the Reconciler's output unchanged. -/
theorem no_ideograph_skipped (dr : String → Option String)
    (vocab : List (String × String)) (tokens : List Token) (e : Fragment)
    (hk : containsKanji e.text = false) :
    reconcile dr vocab tokens [e] = [] ∧
    ∀ pre post, reconcile dr vocab tokens (pre ++ e :: post) =
      reconcile dr vocab tokens (pre ++ post) := by
  have herase := fun pre post =>
    reconcile_erase dr vocab tokens
      (fun acc => reconcileStep_skip_noKanji hk acc) pre post
  refine ⟨?_, herase⟩
  have := herase [] []
  simpa using this

/-- Witness for C9: a kana-only fragment is not annotated. -/
theorem no_ideograph_skipped_witness :
    reconcile (fun _ => some "かな") [] [] [⟨"かな", 0, 0, 10, 10⟩] = [] :=
  (no_ideograph_skipped (fun _ => some "かな") [] [] ⟨"かな", 0, 0, 10, 10⟩
    (by decide)).1

/-- **C10**: only tokens whose `is_kanji` flag is true are ever considered as
match candidates — any token the matching loop returns is ideograph-flagged;
and a fragment whose text equals or textually overlaps only kana-only tokens
matches nothing, so it takes the direct-lookup fallback path instead. -/
theorem kana_tokens_not_matched (dr : String → Option String)
    (vocab : List (String × String)) (tokens : List Token) (e : Fragment)
    (hk : containsKanji e.text = true)
    (hkana : ∀ t ∈ tokens,
      (t.text = e.text ∨ substr t.text e.text = true ∨
        substr e.text t.text = true) → t.is_kanji = false) :
    (∀ (tokens' : List Token) (elemText : String) (t : Token),
      findBestMatch tokens' elemText = some t → t.is_kanji = true) ∧
    findBestMatch tokens e.text = none ∧
    reconcile dr vocab tokens [e] =
      (match dr e.text with
       | some hira => [⟨e.text, hira, "", e.x, e.y, e.w, e.h⟩]
       | none => []) := by
  have hnone : findBestMatch tokens e.text = none := by
    refine findBestMatchAux_noCand ?_ none 0
    intro t ht hkj
    have hnot : ¬(t.text = e.text ∨ substr t.text e.text = true ∨
        substr e.text t.text = true) := by
      intro hrel
      have hflag := hkana t ht hrel
      rw [hflag] at hkj
      exact Bool.false_ne_true hkj
    push_neg at hnot
    obtain ⟨h1, h2, h3⟩ := hnot
    exact ⟨h1, Bool.eq_false_iff.mpr h2, Bool.eq_false_iff.mpr h3⟩
  refine ⟨?_, hnone, ?_⟩
  · intro tokens' elemText t h
    exact findBestMatchAux_isKanji (fun b hb => Option.noConfusion hb) t h
  · cases hdr : dr e.text with
    | some hira =>
      unfold reconcile reconcileStep
      rw [List.foldl_cons, List.foldl_nil]
      simp [hk, hnone, hdr]
    | none =>
      unfold reconcile reconcileStep
      rw [List.foldl_cons, List.foldl_nil]
      simp [hk, hnone, hdr]

/-- Witness for C10: the kana-only token `お` is a substring of the fragment
`お茶`, yet the fragment falls back to the direct lookup instead of matching
it. -/
theorem kana_tokens_not_matched_witness :
    findBestMatch [⟨"お", "接頭辞", "お", "オ", "o", false, ""⟩] "お茶" = none ∧
    reconcile (fun _ => some "おちゃ") [] [⟨"お", "接頭辞", "お", "オ", "o", false, ""⟩]
        [⟨"お茶", 5, 6, 20, 10⟩] = [⟨"お茶", "おちゃ", "", 5, 6, 20, 10⟩] := by
  have h := kana_tokens_not_matched (fun _ => some "おちゃ") []
    [⟨"お", "接頭辞", "お", "オ", "o", false, ""⟩] ⟨"お茶", 5, 6, 20, 10⟩
    (by decide) (by decide)
  exact ⟨h.2.1, h.2.2⟩

/-- **C6**: the Layout Engine's `annotate` fails with the invalid-input error
exactly when the buffer's shape is not `(H, W, 3)` — and then it does so for
*every* rendering collaborator, i.e. before any drawing occurs — while for
every valid 3-channel input it does not raise and returns an image of the
input's own dimensions (also when the internal drawing fails and the input's
copy is returned).  The rendering collaborator is assumed
dimension-preserving, which is what the PIL/cv2 pipeline in the source
guarantees. -/
theorem annotate_shape (render : NpImage → List Annotation → Option NpImage)
    (hpres : ∀ img anns out, render img anns = some out → out.shape = img.shape)
    (image : NpImage) (annotations : List Annotation) :
    (¬(image.shape.length = 3 ∧ image.shape.getD 2 0 = 3) →
      ∀ render' : NpImage → List Annotation → Option NpImage,
        annotate render' image annotations = Except.error "Invalid image shape") ∧
    ((image.shape.length = 3 ∧ image.shape.getD 2 0 = 3) →
      ∃ out, annotate render image annotations = Except.ok out ∧
        out.shape = image.shape) := by
  constructor
  · intro hbad render'
    unfold annotate
    by_cases h1 : image.shape.length = 3
    · have h2 : image.shape.getD 2 0 ≠ 3 := fun hg => hbad ⟨h1, hg⟩
      rw [if_neg (not_not_intro h1), if_pos h2]
    · rw [if_pos h1]
  · rintro ⟨h1, h2⟩
    unfold annotate
    rw [if_neg (not_not_intro h1), if_neg (not_not_intro h2)]
    cases hr : render image annotations with
    | some out => exact ⟨out, rfl, hpres _ _ _ hr⟩
    | none => exact ⟨image, rfl, rfl⟩

/-- Witness for C6: a 2-dimensional buffer is rejected, a `(7, 9, 3)` buffer
is annotated into a buffer of the same shape. -/
theorem annotate_shape_witness :
    annotate (fun img _ => some img) ⟨[5, 4]⟩ [] = Except.error "Invalid image shape" ∧
    ∃ out, annotate (fun img _ => some img) ⟨[7, 9, 3]⟩ [] = Except.ok out ∧
      out.shape = (⟨[7, 9, 3]⟩ : NpImage).shape := by
  have hpres : ∀ (img : NpImage) (anns : List Annotation) (out : NpImage),
      (fun (i : NpImage) (_ : List Annotation) => some i) img anns = some out →
      out.shape = img.shape := by
    intro img anns out h
    cases Option.some.inj h
    rfl
  exact ⟨(annotate_shape (fun img _ => some img) hpres ⟨[5, 4]⟩ []).1 (by decide) _,
         (annotate_shape (fun img _ => some img) hpres ⟨[7, 9, 3]⟩ []).2 (by decide)⟩

/-- **C7**: the line spacing is the truncated average of the consecutive gaps
between the sorted distinct `y` positions, with the fixed default of 50 when
fewer than two distinct lines exist; the font tier is 8 below 30, 10 from 30
up to below 50, and 12 from 50 on; in particular `y` positions 10, 30, 52
(gaps 20 and 22, average 21) select the smallest tier. -/
theorem font_size_selection :
    (∀ s : Int, s < 30 → selectFontSize s = 8) ∧
    (∀ s : Int, 30 ≤ s → s < 50 → selectFontSize s = 10) ∧
    (∀ s : Int, 50 ≤ s → selectFontSize s = 12) ∧
    (∀ annotations : List Annotation,
      ((annotations.map (fun a => a.y)).eraseDups).length < 2 →
      calculateLineSpacing annotations = 50) ∧
    calculateLineSpacing demoAnns = 21 ∧
    selectFontSize (calculateLineSpacing demoAnns) = 8 := by
  refine ⟨?_, ?_, ?_, ?_, by decide, by decide⟩
  · intro s h
    simp [selectFontSize, h]
  · intro s h1 h2
    simp [selectFontSize, not_lt.mpr h1, h2]
  · intro s h
    have h1 : ¬s < 30 := not_lt.mpr (le_trans (by norm_num) h)
    have h2 : ¬s < 50 := not_lt.mpr h
    simp [selectFontSize, h1, h2]
  · intro anns hlt
    unfold calculateLineSpacing
    by_cases hlen : anns.length < 2
    · rw [if_pos hlen]
    · rw [if_neg hlen]
      have hys : (List.insertionSort (· ≤ ·)
          ((anns.map (fun a => a.y)).eraseDups)).length < 2 := by
        rwa [List.length_insertionSort]
      simp only [hys, if_pos]

/-- Witness for C7: one value in each tier, and the fixed default for an
empty annotation list. -/
theorem font_size_selection_witness :
    selectFontSize 21 = 8 ∧ selectFontSize 35 = 10 ∧ selectFontSize 61 = 12 ∧
    calculateLineSpacing [] = 50 :=
  ⟨font_size_selection.1 21 (by decide),
   font_size_selection.2.1 35 (by decide) (by decide),
   font_size_selection.2.2.1 61 (by decide),
   font_size_selection.2.2.2.1 [] (by decide)⟩

/-- **C8**: when the Analyzer's external call fails — a timeout included —
`analyze` answers the sentinel analysis instead of propagating, and the
Pipeline Controller still reports `success: true` with the sentinel
translation and an empty grammar-pattern list, as long as extraction,
tokenization and the final image save succeeded. -/
theorem analyzer_failure_degrades (directReading : String → Option String)
    (elems : List Fragment) (fullText : String) (linesCount : Nat)
    (tokens : List Token) (path : String) :
    analyze none = { translation := "Analysis unavailable", grammar_patterns := [] } ∧
    ∃ r : PipelineReport,
      process directReading (some (elems, fullText, linesCount)) (some tokens)
        none (some path) = ProcessResult.ok r ∧
      r.success = true ∧ r.translation = "Analysis unavailable" ∧
      r.grammar_patterns = [] :=
  ⟨rfl,
   formatOutput fullText elems.length linesCount "Analysis unavailable" []
     (reconcile directReading (buildVocabulary tokens) tokens elems) path,
   rfl, rfl, rfl, rfl⟩
